import Mathlib

/-!
Verification of the bit-packed sprite-data codec of `src/widgets.py`
(`SpriteEditorWidget` and its nested `PropertyDecoder` classes).

The buffer is modelled as a `List Nat` whose elements are bytes (`< 256`,
guaranteed by Python's `bytes`/`bytearray`).  Bit positions follow the
source's convention: 1-indexed, left to right, MSB of byte 0 is bit 1.
Python's `data[i]` is modelled with `List.getD` / `List.set`; all claims
are settled on in-buffer ranges, where this is faithful.
-/

namespace Miyamoto

/-- Specification of `self.bit` of a `PropertyDecoder`: in the source it is
either an `int` (single bit) or a 2-tuple of ints. -/
inductive BitSpec where
  | scalar (b : Nat)
  | range (s e : Nat)
deriving DecidableEq, Repr

/-- Reading of one bit, 1-indexed: Python's
`(data[(p-1) >> 3] >> (7 - ((p-1) & 7))) & 1`, the body of the loop in
`PropertyDecoder.retrieve` (after its `n -= 1`) and of its scalar branch. -/
def getBitPos (p : Nat) (data : List Nat) : Nat :=
  (data.getD ((p - 1) >>> 3) 0 >>> (7 - ((p - 1) &&& 7))) &&& 1

/-- General (bit-by-bit) branch of `PropertyDecoder.retrieve` for a tuple
`bit`: Python's `for n in range(bit[0], bit[1]): value = (value << 1) | ...`.
Note the loop bound: `range` excludes `bit[1]`. -/
def retrieveGeneral (s e : Nat) (data : List Nat) : Nat :=
  (List.range' s (e - s)).foldl (fun v n => (v <<< 1) ||| getBitPos n data) 0

/-- Translation of `PropertyDecoder.retrieve` of `src/widgets.py`.
The fast-path guard is the source's
`bit[1] == bit[0] + 7 and bit[0] & 1 == 1`; the scalar branch returns 0
when the byte index falls at or beyond the buffer length. -/
def retrieve (bit : BitSpec) (data : List Nat) : Nat :=
  match bit with
  | .range s e =>
    if e = s + 7 ∧ s &&& 1 = 1 then data.getD (s >>> 3) 0
    else retrieveGeneral s e data
  | .scalar b =>
    if data.length ≤ (b - 1) >>> 3 then 0
    else getBitPos b data

/-- Writing of one bit, 1-indexed: the body of the general loop of
`PropertyDecoder.insertvalue` — `off = 1 << (7 - ((n-1) & 7))`, then
`sdata[(n-1) >> 3] |= off` if the low bit of `value` is set, else
`sdata[(n-1) >> 3] &= 0xFF ^ off`. -/
def setBitPos (p : Nat) (value : Nat) (data : List Nat) : List Nat :=
  if value &&& 1 = 1 then
    data.set ((p - 1) >>> 3) (data.getD ((p - 1) >>> 3) 0 ||| (1 <<< (7 - ((p - 1) &&& 7))))
  else
    data.set ((p - 1) >>> 3) (data.getD ((p - 1) >>> 3) 0 &&& (0xFF ^^^ (1 <<< (7 - ((p - 1) &&& 7)))))

/-- General branch of `PropertyDecoder.insertvalue` for a tuple `bit`:
Python's `for n in reversed(range(bit[0], bit[1])): ...; value >>= 1`. -/
def insertGeneral (s e : Nat) (data : List Nat) (value : Nat) : List Nat :=
  (((List.range' s (e - s)).reverse).foldl
    (fun st n => (setBitPos n st.2 st.1, st.2 >>> 1)) (data, value)).1

/-- Translation of `PropertyDecoder.insertvalue` of `src/widgets.py`.
The scalar branch returns the Python integer `0` (not a buffer!) when the
byte index falls at or beyond the buffer length, modelled as `Sum.inl 0`;
every other branch returns a buffer, modelled as `Sum.inr`. -/
def insertvalue (bit : BitSpec) (data : List Nat) (value : Nat) : Nat ⊕ List Nat :=
  match bit with
  | .range s e =>
    if e = s + 7 ∧ s &&& 1 = 1 then
      .inr (data.set ((s - 1) >>> 3) (value &&& 0xFF))
    else
      .inr (insertGeneral s e data value)
  | .scalar b =>
    if data.length ≤ (b - 1) >>> 3 then .inl 0
    else .inr (setBitPos b value data)

/-- Twelve zero bytes, the editor's initial `self.data = b'\x00' * 12`. -/
def zeroData : List Nat := List.replicate 12 0

example : retrieve (.range 1 8) [1, 0, 0, 0, 0, 0, 0, 0, 0, 0, 0, 0] = 1 := by decide

example : retrieveGeneral 1 8 [1, 0, 0, 0, 0, 0, 0, 0, 0, 0, 0, 0] = 0 := by decide

example : insertvalue (.range 1 8) zeroData 1 =
    .inr [1, 0, 0, 0, 0, 0, 0, 0, 0, 0, 0, 0] := by decide

example : insertGeneral 1 8 zeroData 1 = [2, 0, 0, 0, 0, 0, 0, 0, 0, 0, 0, 0] := by decide

example : retrieve (.scalar 97) zeroData = 0 := by decide

example : insertvalue (.scalar 97) zeroData 1 = .inl 0 := by decide

/-! Basic bridges from the source's shift/mask formulas to `/`, `%` and
`Nat.testBit`. -/

theorem shiftRight3_eq (x : Nat) : x >>> 3 = x / 8 := by
  simpa using Nat.shiftRight_eq_div_pow x 3

theorem and7_eq (x : Nat) : x &&& 7 = x % 8 := by
  have h : (7 : Nat) = 2 ^ 3 - 1 := by norm_num
  rw [h, Nat.and_pow_two_sub_one_eq_mod]

theorem and1_testBit (x k : Nat) : (x >>> k) &&& 1 = ((x.testBit k).toNat) := by
  rw [Nat.and_one_is_mod, Nat.shiftRight_eq_div_pow, Nat.testBit_to_div_mod]
  rcases Nat.mod_two_eq_zero_or_one (x / 2 ^ k) with h | h <;> simp [h]

theorem getBitPos_testBit (p : Nat) (data : List Nat) :
    getBitPos p data = ((data.getD ((p - 1) / 8) 0).testBit (7 - (p - 1) % 8)).toNat := by
  rw [getBitPos, shiftRight3_eq, and7_eq, and1_testBit]

theorem getBitPos_le_one (p : Nat) (data : List Nat) : getBitPos p data ≤ 1 := by
  rw [getBitPos_testBit]; rcases (data.getD ((p - 1) / 8) 0).testBit (7 - (p - 1) % 8) <;> simp

theorem setBitPos_length (p v : Nat) (data : List Nat) :
    (setBitPos p v data).length = data.length := by
  rw [setBitPos]
  split <;> simp

theorem getD_set_ne (l : List Nat) (i j a : Nat) (h : i ≠ j) :
    (l.set i a).getD j 0 = l.getD j 0 := by
  simp [List.getD, List.getElem?_set_ne h]

theorem getD_set_self (l : List Nat) (i a : Nat) (h : i < l.length) :
    (l.set i a).getD i 0 = a := by
  simp [List.getD, List.getElem?_set_self, h]

theorem getD_lt_256 (data : List Nat) (h : ∀ b ∈ data, b < 256) (i : Nat) :
    data.getD i 0 < 256 := by
  rcases Nat.lt_or_ge i data.length with hi | hi
  · have : data.getD i 0 = data[i] := by simp [List.getD, List.getElem?_eq_getElem hi]
    rw [this]
    exact h _ (List.getElem_mem hi)
  · simp [List.getD, List.getElem?_eq_none hi]

theorem shiftLeft_one_pow (j : Nat) : (1 : Nat) <<< j = 2 ^ j := by
  rw [Nat.shiftLeft_eq, one_mul]

theorem testBit_255 (j : Nat) : (0xFF : Nat).testBit j = decide (j < 8) := by
  have h255 : (0xFF : Nat) = 2 ^ 8 - 1 := by norm_num
  rw [h255, Nat.testBit_two_pow_sub_one]

/-- Writing one bit leaves every other byte of the buffer unchanged. -/
theorem setBitPos_byte_frame (p v : Nat) (data : List Nat) (j : Nat)
    (h : (p - 1) / 8 ≠ j) : (setBitPos p v data).getD j 0 = data.getD j 0 := by
  rw [setBitPos, shiftRight3_eq]
  split <;> exact getD_set_ne _ _ _ _ h

/-- Writing one bit leaves every other bit position unchanged
(positions are 1-indexed; the Python source subtracts 1 before addressing,
so distinct effective offsets `p - 1`, `q - 1` are what matters). -/
theorem setBitPos_bit_frame (p v : Nat) (data : List Nat) (q : Nat)
    (h : p - 1 ≠ q - 1) : getBitPos q (setBitPos p v data) = getBitPos q data := by
  by_cases hb : (p - 1) / 8 = (q - 1) / 8
  · -- same byte, different in-byte bit
    rcases Nat.lt_or_ge ((p - 1) / 8) data.length with hlt | hge
    · have hbq : (q - 1) / 8 < data.length := hb ▸ hlt
      have hmod : (p - 1) % 8 ≠ (q - 1) % 8 := by omega
      have hne : 7 - ((p - 1) &&& 7) ≠ 7 - ((q - 1) &&& 7) := by
        rw [and7_eq, and7_eq]; omega
      rw [getBitPos_testBit, getBitPos_testBit, setBitPos, shiftRight3_eq]
      rw [and7_eq] at hne
      split
      · rw [← hb, getD_set_self _ _ _ hlt, Nat.testBit_lor, shiftLeft_one_pow,
          Nat.testBit_two_pow_of_ne (by rw [and7_eq] at hne ⊢; omega), Bool.or_false, hb]
      · rw [← hb, getD_set_self _ _ _ hlt, Nat.testBit_land, Nat.testBit_xor,
          shiftLeft_one_pow, Nat.testBit_two_pow_of_ne (by rw [and7_eq] at hne ⊢; omega),
          testBit_255, hb]
        have h7 : 7 - (q - 1) % 8 < 8 := by omega
        simp [h7]
    · rw [getBitPos_testBit, getBitPos_testBit, setBitPos, shiftRight3_eq]
      split <;> rw [List.set_eq_of_length_le hge]
  · -- different byte
    rw [getBitPos_testBit, getBitPos_testBit, setBitPos, shiftRight3_eq]
    split <;> rw [getD_set_ne _ _ _ _ hb]

/-- Reading back the bit position just written yields the low bit of the
written value, provided the byte is inside the buffer. -/
theorem setBitPos_get (p v : Nat) (data : List Nat) (h : (p - 1) / 8 < data.length) :
    getBitPos p (setBitPos p v data) = v &&& 1 := by
  rw [getBitPos_testBit, setBitPos, shiftRight3_eq, Nat.and_one_is_mod]
  split
  case isTrue hv =>
    rw [getD_set_self _ _ _ h, Nat.testBit_lor, shiftLeft_one_pow]
    rw [and7_eq, Nat.testBit_two_pow_self]
    simp
    omega
  case isFalse hv =>
    rw [getD_set_self _ _ _ h, Nat.testBit_land, Nat.testBit_xor, shiftLeft_one_pow]
    rw [and7_eq, Nat.testBit_two_pow_self, testBit_255]
    have h7 : 7 - (p - 1) % 8 < 8 := by omega
    simp [h7]
    omega

/-- Byte values stay below 256 across a single-bit write. -/
theorem setBitPos_bytes_lt (p v : Nat) (data : List Nat) (h : ∀ b ∈ data, b < 256) :
    ∀ b ∈ setBitPos p v data, b < 256 := by
  intro b hb
  rw [setBitPos] at hb
  have hoff : (1 <<< (7 - ((p - 1) &&& 7))) < 256 := by
    rw [shiftLeft_one_pow]
    calc 2 ^ (7 - ((p - 1) &&& 7)) ≤ 2 ^ 7 := Nat.pow_le_pow_right (by omega) (by omega)
      _ < 256 := by norm_num
  split at hb <;> rcases List.mem_or_eq_of_mem_set hb with h1 | h1
  · exact h _ h1
  · subst h1
    have h256 : (256 : Nat) = 2 ^ 8 := by norm_num
    rw [h256]
    exact Nat.or_lt_two_pow (by rw [← h256]; exact getD_lt_256 data h _) (by omega)
  · exact h _ h1
  · subst h1
    exact lt_of_le_of_lt Nat.and_le_left (getD_lt_256 data h _)

/-! Structural recurrences for the two general-path loops. -/

theorem retrieveGeneral_zero (s : Nat) (data : List Nat) :
    retrieveGeneral s s data = 0 := by
  simp [retrieveGeneral]

theorem retrieveGeneral_succ (s w : Nat) (data : List Nat) :
    retrieveGeneral s (s + w + 1) data =
      ((retrieveGeneral s (s + w) data) <<< 1) ||| getBitPos (s + w) data := by
  rw [retrieveGeneral, retrieveGeneral]
  have h1 : s + w + 1 - s = w + 1 := by omega
  have h2 : s + w - s = w := by omega
  rw [h1, h2, List.range'_concat, List.foldl_append]
  simp

theorem insertGeneral_zero (s : Nat) (data : List Nat) (v : Nat) :
    insertGeneral s s data v = data := by
  simp [insertGeneral]

theorem insertGeneral_succ (s w : Nat) (data : List Nat) (v : Nat) :
    insertGeneral s (s + w + 1) data v =
      insertGeneral s (s + w) (setBitPos (s + w) v data) (v >>> 1) := by
  rw [insertGeneral, insertGeneral]
  have h1 : s + w + 1 - s = w + 1 := by omega
  have h2 : s + w - s = w := by omega
  rw [h1, h2, List.range'_concat, List.reverse_append]
  simp

theorem insertGeneral_length (s e : Nat) (data : List Nat) (v : Nat) :
    (insertGeneral s e data v).length = data.length := by
  rcases Nat.lt_or_ge e s with h | h
  · have h0 : e - s = 0 := by omega
    simp [insertGeneral, h0]
  · obtain ⟨w, rfl⟩ : ∃ w, e = s + w := ⟨e - s, by omega⟩
    clear h
    induction w generalizing data v with
    | zero => rw [Nat.add_zero, insertGeneral_zero]
    | succ w ih =>
      rw [← Nat.add_assoc, insertGeneral_succ, ih _ _, setBitPos_length]

theorem insertGeneral_bytes_lt (s e : Nat) (data : List Nat) (v : Nat)
    (h : ∀ b ∈ data, b < 256) : ∀ b ∈ insertGeneral s e data v, b < 256 := by
  rcases Nat.lt_or_ge e s with hlt | hle
  · have h0 : e - s = 0 := by omega
    simpa [insertGeneral, h0] using h
  · obtain ⟨w, rfl⟩ : ∃ w, e = s + w := ⟨e - s, by omega⟩
    clear hle
    induction w generalizing data v with
    | zero => rw [Nat.add_zero, insertGeneral_zero]; exact h
    | succ w ih =>
      rw [← Nat.add_assoc, insertGeneral_succ]
      exact ih _ _ (setBitPos_bytes_lt _ _ _ h)

/-- Frame property of the general write loop: bit positions outside
`[s, e)` are untouched.  Positions are required to be ≥ 1 as in the
source's 1-indexed convention. -/
theorem insertGeneral_frame (s e : Nat) (data : List Nat) (v : Nat) (q : Nat)
    (hs : 1 ≤ s) (hq1 : 1 ≤ q) (hq : q < s ∨ e ≤ q) :
    getBitPos q (insertGeneral s e data v) = getBitPos q data := by
  rcases Nat.lt_or_ge e s with hlt | hle
  · have h0 : e - s = 0 := by omega
    simp [insertGeneral, h0]
  · obtain ⟨w, rfl⟩ : ∃ w, e = s + w := ⟨e - s, by omega⟩
    clear hle
    induction w generalizing data v with
    | zero => rw [Nat.add_zero, insertGeneral_zero]
    | succ w ih =>
      rw [← Nat.add_assoc] at hq ⊢
      rw [insertGeneral_succ, ih _ _ (by omega)]
      exact setBitPos_bit_frame (s + w) _ _ q (by omega)

/-- Frame property of the general write loop at byte granularity: a byte
containing no written position is unchanged. -/
theorem insertGeneral_byte_frame (s e : Nat) (data : List Nat) (v : Nat) (j : Nat)
    (hj : ∀ n, s ≤ n → n < e → (n - 1) / 8 ≠ j) :
    (insertGeneral s e data v).getD j 0 = data.getD j 0 := by
  rcases Nat.lt_or_ge e s with hlt | hle
  · have h0 : e - s = 0 := by omega
    simp [insertGeneral, h0]
  · obtain ⟨w, rfl⟩ : ∃ w, e = s + w := ⟨e - s, by omega⟩
    clear hle
    induction w generalizing data v with
    | zero => rw [Nat.add_zero, insertGeneral_zero]
    | succ w ih =>
      rw [← Nat.add_assoc] at hj ⊢
      rw [insertGeneral_succ, ih _ _ (fun n h1 h2 => hj n h1 (by omega))]
      exact setBitPos_byte_frame _ _ _ _ (hj (s + w) (by omega) (by omega))

/-- Round trip of the general paths: writing `v` into `[s, e)` and reading
the same span back yields `v` reduced modulo the span's width `e - s`. -/
theorem retrieveGeneral_insertGeneral (s w : Nat) (data : List Nat) (v : Nat)
    (hs : 1 ≤ s) (hb : ∀ n, s ≤ n → n < s + w → (n - 1) / 8 < data.length) :
    retrieveGeneral s (s + w) (insertGeneral s (s + w) data v) = v % 2 ^ w := by
  induction w generalizing data v with
  | zero =>
    rw [Nat.add_zero, insertGeneral_zero, retrieveGeneral_zero]
    omega
  | succ w ih =>
    rw [← Nat.add_assoc] at hb ⊢
    rw [insertGeneral_succ, retrieveGeneral_succ]
    have hlen : ∀ n, s ≤ n → n < s + w → (n - 1) / 8 < (setBitPos (s + w) v data).length := by
      intro n h1 h2
      rw [setBitPos_length]
      exact hb n h1 (by omega)
    rw [ih _ _ hlen]
    have hfr : getBitPos (s + w) (insertGeneral s (s + w) (setBitPos (s + w) v data) (v >>> 1)) =
        getBitPos (s + w) (setBitPos (s + w) v data) :=
      insertGeneral_frame s (s + w) _ _ _ hs (by omega) (Or.inr (by omega))
    rw [hfr, setBitPos_get _ _ _ (hb (s + w) (by omega) (by omega))]
    have hshift : v >>> 1 = v / 2 := by simpa using Nat.shiftRight_eq_div_pow v 1
    have hone : v &&& 1 = v % 2 := Nat.and_one_is_mod v
    rw [hshift, hone]
    have hsl : (v / 2 % 2 ^ w) <<< 1 = 2 * (v / 2 % 2 ^ w) := by
      rw [Nat.shiftLeft_eq]; ring
    rw [hsl]
    have hor : 2 * (v / 2 % 2 ^ w) ||| v % 2 = 2 * (v / 2 % 2 ^ w) + v % 2 := by
      rcases Nat.mod_two_eq_zero_or_one v with h | h <;> rw [h]
      · simp
      · have hlb := Nat.lor_bit false (v / 2 % 2 ^ w) true 0
        simp [Nat.bit] at hlb ⊢
        omega
    rw [hor]
    have h1 : v / 2 % 2 ^ w = v % (2 * 2 ^ w) / 2 := Nat.div_mod_eq_mod_mul_div v 2 (2 ^ w)
    have h2 : (2 : Nat) * 2 ^ w = 2 ^ (w + 1) := by ring
    have h3 : v % 2 = v % 2 ^ (w + 1) % 2 :=
      (Nat.mod_mod_of_dvd v (dvd_pow_self 2 (by omega))).symm
    rw [h1, h2, h3]
    omega

/-- Congruence of the general read loop: it depends only on the bits of
the positions it reads. -/
theorem retrieveGeneral_congr (s e : Nat) (d1 d2 : List Nat)
    (h : ∀ n, s ≤ n → n < e → getBitPos n d1 = getBitPos n d2) :
    retrieveGeneral s e d1 = retrieveGeneral s e d2 := by
  rcases Nat.lt_or_ge e s with hlt | hle
  · have h0 : e - s = 0 := by omega
    simp [retrieveGeneral, h0]
  · obtain ⟨w, rfl⟩ : ∃ w, e = s + w := ⟨e - s, by omega⟩
    clear hle
    induction w with
    | zero => rw [Nat.add_zero, retrieveGeneral_zero, retrieveGeneral_zero]
    | succ w ih =>
      rw [← Nat.add_assoc] at h ⊢
      rw [retrieveGeneral_succ, retrieveGeneral_succ]
      rw [ih (fun n h1 h2 => h n h1 (by omega)), h (s + w) (by omega) (by omega)]

/-- Width of the general read: the result always fits in `e - s` bits
(the loop excludes `e`, so `e - s` bits are read, not `e - s + 1`). -/
theorem retrieveGeneral_lt (s w : Nat) (data : List Nat) :
    retrieveGeneral s (s + w) data < 2 ^ w := by
  induction w with
  | zero =>
    rw [Nat.add_zero, retrieveGeneral_zero]
    exact Nat.pos_pow_of_pos 0 (by omega)
  | succ w ih =>
    rw [← Nat.add_assoc, retrieveGeneral_succ]
    have h1 : (retrieveGeneral s (s + w) data) <<< 1 < 2 ^ (w + 1) := by
      rw [Nat.shiftLeft_eq, pow_succ]
      omega
    have h2 : getBitPos (s + w) data < 2 ^ (w + 1) := by
      have ha := getBitPos_le_one (s + w) data
      have hb : (1 : Nat) < 2 ^ (w + 1) := Nat.one_lt_two_pow_iff.mpr (by omega)
      omega
    exact Nat.or_lt_two_pow h1 h2

/-- Bit-level characterization of the general read: bit `k` of the result
is the buffer bit at position `e - 1 - k` — MSB of the range first. -/
theorem retrieveGeneral_testBit (s w : Nat) (data : List Nat) (k : Nat) (hk : k < w) :
    (retrieveGeneral s (s + w) data).testBit k = decide (getBitPos (s + w - 1 - k) data = 1) := by
  induction w generalizing k with
  | zero => omega
  | succ w ih =>
    rw [show s + (w + 1) = s + w + 1 from rfl, retrieveGeneral_succ]
    have hble : getBitPos (s + w) data ≤ 1 := getBitPos_le_one _ _
    rcases Nat.eq_zero_or_pos k with rfl | hpos
    · rw [Nat.testBit_lor, Nat.testBit_shiftLeft]
      rw [show (decide ((1 : Nat) ≤ 0)) = false from rfl, Bool.false_and, Bool.false_or]
      rw [show s + w + 1 - 1 - 0 = s + w from by omega]
      rcases Nat.le_one_iff_eq_zero_or_eq_one.mp hble with h | h <;> rw [h] <;> decide
    · obtain ⟨k, rfl⟩ : ∃ m, k = m + 1 := ⟨k - 1, by omega⟩
      rw [Nat.testBit_lor, Nat.testBit_shiftLeft]
      have hbit : (getBitPos (s + w) data).testBit (k + 1) = false := by
        apply Nat.testBit_lt_two_pow
        exact lt_of_le_of_lt hble (Nat.one_lt_two_pow_iff.mpr (by omega))
      rw [hbit, Bool.or_false]
      rw [show (decide ((1 : Nat) ≤ k + 1)) = true from by simp, Bool.true_and]
      rw [show k + 1 - 1 = k from rfl, ih k (by omega)]
      rw [show s + w - 1 - k = s + w + 1 - 1 - (k + 1) from by omega]

/-- Well-formedness of a bit spec against a buffer: 1-indexed positions,
every addressed byte inside the buffer.  For a tuple range this bounds the
byte of the largest read/written position `e - 1`. -/
def posOK : BitSpec → List Nat → Prop
  | .scalar b, data => 1 ≤ b ∧ (b - 1) / 8 < data.length
  | .range s e, data => 1 ≤ s ∧ s < e ∧ (e - 2) / 8 < data.length

instance (bit : BitSpec) (data : List Nat) : Decidable (posOK bit data) := by
  rcases bit with b | ⟨s, e⟩ <;> simp only [posOK] <;> infer_instance

/-- Number of bits actually written (and read back) by `insertvalue` /
`retrieve` on a spec: 8 on the whole-byte fast path, `e - s` on the
general path (the loops exclude `e`), 1 for a scalar. -/
def widthOf : BitSpec → Nat
  | .scalar _ => 1
  | .range s e => if e = s + 7 ∧ s &&& 1 = 1 then 8 else e - s

theorem and255_eq (x : Nat) : x &&& 255 = x % 256 := by
  have h : (255 : Nat) = 2 ^ 8 - 1 := by norm_num
  rw [h, Nat.and_pow_two_sub_one_eq_mod]

theorem odd_of_and1 (s : Nat) (h : s &&& 1 = 1) : s % 2 = 1 := by
  rwa [Nat.and_one_is_mod] at h

/-- Round trip at the `PropertyDecoder` level: writing `v` into a
well-formed spec and reading the same spec back yields `v` modulo the
spec's written width. -/
theorem insertvalue_retrieve (bit : BitSpec) (data : List Nat) (v : Nat)
    (h : posOK bit data) :
    ∃ out, insertvalue bit data v = Sum.inr out ∧ retrieve bit out = v % 2 ^ widthOf bit := by
  rcases bit with b | ⟨s, e⟩
  · obtain ⟨hb1, hb2⟩ := h
    refine ⟨setBitPos b v data, ?_, ?_⟩
    · rw [insertvalue, shiftRight3_eq]
      rw [if_neg (by omega)]
    · rw [retrieve, setBitPos_length, shiftRight3_eq, if_neg (by omega)]
      rw [setBitPos_get _ _ _ hb2, Nat.and_one_is_mod]
      rfl
  · obtain ⟨hs, hse, hbyte⟩ := h
    by_cases hfast : e = s + 7 ∧ s &&& 1 = 1
    · refine ⟨data.set ((s - 1) >>> 3) (v &&& 0xFF), ?_, ?_⟩
      · rw [insertvalue, if_pos hfast]
      · rw [retrieve, if_pos hfast]
        have hodd : s % 2 = 1 := odd_of_and1 s hfast.2
        have heq : s >>> 3 = (s - 1) >>> 3 := by
          rw [shiftRight3_eq, shiftRight3_eq]
          omega
        have hlt : (s - 1) >>> 3 < data.length := by
          rw [shiftRight3_eq]
          calc (s - 1) / 8 ≤ (e - 2) / 8 := Nat.div_le_div_right (by omega)
            _ < data.length := hbyte
        rw [heq, getD_set_self _ _ _ hlt]
        rw [widthOf, if_pos hfast, show (0xFF : Nat) = 255 from rfl, and255_eq]
        norm_num
    · refine ⟨insertGeneral s e data v, ?_, ?_⟩
      · rw [insertvalue, if_neg hfast]
      · rw [retrieve, if_neg hfast, widthOf, if_neg hfast]
        obtain ⟨w, rfl⟩ : ∃ w, e = s + w := ⟨e - s, by omega⟩
        rw [show s + w - s = w from by omega]
        apply retrieveGeneral_insertGeneral s w data v hs
        intro n h1 h2
        calc (n - 1) / 8 ≤ (s + w - 2) / 8 := Nat.div_le_div_right (by omega)
          _ < data.length := hbyte

/-- Buffer-returning results of `insertvalue` keep the buffer length. -/
theorem insertvalue_length (bit : BitSpec) (data out : List Nat) (v : Nat)
    (h : insertvalue bit data v = Sum.inr out) : out.length = data.length := by
  rcases bit with b | ⟨s, e⟩
  · rw [insertvalue] at h
    split at h
    · exact absurd h (by simp)
    · cases h
      exact setBitPos_length _ _ _
  · rw [insertvalue] at h
    split at h <;> cases h
    · simp
    · exact insertGeneral_length _ _ _ _

/-- Buffer-returning results of `insertvalue` keep bytes below 256. -/
theorem insertvalue_bytes_lt (bit : BitSpec) (data out : List Nat) (v : Nat)
    (hd : ∀ b ∈ data, b < 256) (h : insertvalue bit data v = Sum.inr out) :
    ∀ b ∈ out, b < 256 := by
  rcases bit with b | ⟨s, e⟩
  · rw [insertvalue] at h
    split at h
    · exact absurd h (by simp)
    · cases h
      exact setBitPos_bytes_lt _ _ _ hd
  · rw [insertvalue] at h
    split at h <;> cases h
    · intro x hx
      rcases List.mem_or_eq_of_mem_set hx with h1 | h1
      · exact hd _ h1
      · subst h1
        have h256 : (0xFF : Nat) = 255 := rfl
        rw [h256, and255_eq]
        omega
    · exact insertGeneral_bytes_lt _ _ _ _ hd

/-! Field decoder layer: the four `PropertyDecoder` subclasses. -/

/-- Translation of the `xormask` computation in
`CheckboxPropertyDecoder.__init__`: `for i in range(length): xormask |= 1 << i`,
where `length = bit[1] - bit[0] + 1` for a tuple and 1 for a scalar. -/
def xormaskFold (length : Nat) : Nat :=
  (List.range length).foldl (fun a i => a ||| (1 <<< i)) 0

def checkboxLength : BitSpec → Nat
  | .range s e => e - s + 1
  | .scalar _ => 1

def checkboxXormask (bit : BitSpec) : Nat := xormaskFold (checkboxLength bit)

theorem xormaskFold_eq (n : Nat) : xormaskFold n = 2 ^ n - 1 := by
  induction n with
  | zero => rfl
  | succ n ih =>
    rw [xormaskFold, List.range_succ, List.foldl_append]
    rw [xormaskFold] at ih
    rw [ih]
    simp only [List.foldl_cons, List.foldl_nil]
    refine Nat.eq_of_testBit_eq fun j => ?_
    rw [Nat.testBit_lor, shiftLeft_one_pow, Nat.testBit_two_pow_sub_one,
      Nat.testBit_two_pow_sub_one]
    by_cases hj : j = n
    · subst hj
      rw [Nat.testBit_two_pow_self]
      simp
    · rw [Nat.testBit_two_pow_of_ne (fun hc => hj hc.symm)]
      have hiff : (j < n) ↔ (j < n + 1) := by omega
      simp [hiff]

/-- Translation of `CheckboxPropertyDecoder.update`:
`value = ((self.retrieve(data) & self.mask) == self.mask)`. -/
def checkboxUpdate (bit : BitSpec) (mask : Nat) (data : List Nat) : Bool :=
  (retrieve bit data &&& mask) == mask

/-- Translation of `CheckboxPropertyDecoder.assign`:
`value = self.retrieve(data) & (self.mask ^ self.xormask)`, then
`value |= self.mask` when checked, and `self.insertvalue(data, value)`. -/
def checkboxAssign (bit : BitSpec) (mask : Nat) (checked : Bool) (data : List Nat) :
    Nat ⊕ List Nat :=
  insertvalue bit data
    ((retrieve bit data &&& (mask ^^^ checkboxXormask bit)) ||| (if checked then mask else 0))

/-- Translation of `ListPropertyDecoder.update`: looks the retrieved raw
value up and selects the first entry carrying it, or deselects
(`setCurrentIndex(-1)`, modelled as `none`).  The model's
`existingLookup` table is built outside `src/`; modelled from the spec:
\"look up the retrieved raw integer in the domain; if absent, field is in
an unset display state\" — i.e. membership in the entry list. -/
def listUpdate (entries : List Nat) (bit : BitSpec) (data : List Nat) : Option Nat :=
  let value := retrieve bit data
  if entries.contains value then some (entries.indexOf value) else none

/-- Translation of `ListPropertyDecoder.assign`:
`self.insertvalue(data, self.model.entries[self.widget.currentIndex()][0])`. -/
def listAssign (entries : List Nat) (bit : BitSpec) (idx : Nat) (data : List Nat) :
    Nat ⊕ List Nat :=
  insertvalue bit data (entries.getD idx 0)

/-- Translation of `ValuePropertyDecoder.update`: shows `self.retrieve(data)`. -/
def valueUpdate (bit : BitSpec) (data : List Nat) : Nat :=
  retrieve bit data

/-- Translation of `ValuePropertyDecoder.assign`:
`self.insertvalue(data, self.widget.value())`. -/
def valueAssign (bit : BitSpec) (v : Nat) (data : List Nat) : Nat ⊕ List Nat :=
  insertvalue bit data v

/-- Byte index used by `BitfieldPropertyDecoder.update`/`assign`:
`adjustedIdx = bitIdx + self.startbit; byteNum = adjustedIdx // 8`. -/
def bitfieldByteNum (startbit i : Nat) : Nat := (startbit + i) / 8

/-- In-byte bit index used by `BitfieldPropertyDecoder.update`/`assign`:
`bitNum = adjustedIdx % 8` (bit 0 is the byte's MSB via the `7 - bitNum`
shift). -/
def bitfieldBitNum (startbit i : Nat) : Nat := (startbit + i) % 8

/-- Translation of `BitfieldPropertyDecoder.update`: bit `i` is read from
byte `(startbit + i) / 8` at MSB-first offset `(startbit + i) % 8`. -/
def bitfieldUpdate (startbit bitnum : Nat) (data : List Nat) : List Bool :=
  (List.range bitnum).map (fun i =>
    ((data.getD (bitfieldByteNum startbit i) 0 >>> (7 - bitfieldBitNum startbit i)) &&& 1) == 1)

/-- One iteration of the loop in `BitfieldPropertyDecoder.assign`.
Python's `~x & 0xFF` on an `int` equals `(x ^^^ 0xFF) &&& 0xFF` on
naturals. -/
def bitfieldAssignStep (startbit : Nat) (desired : List Bool) (data : List Nat)
    (idx : Nat) : List Nat :=
  let byteIdx := bitfieldByteNum startbit idx
  let bitIdx := bitfieldBitNum startbit idx
  let origByte := data.getD byteIdx 0
  let origBit := (origByte >>> (7 - bitIdx)) &&& 1
  let newBit : Nat := if desired.getD idx false then 1 else 0
  if origBit = newBit then data
  else if origBit = 0 ∧ newBit = 1 then
    data.set byteIdx ((origByte ||| (1 <<< (7 - bitIdx))) &&& 0xFF)
  else
    data.set byteIdx
      (((((origByte ^^^ 0xFF) &&& 0xFF) ||| (1 <<< (7 - bitIdx))) ^^^ 0xFF) &&& 0xFF)

/-- Translation of `BitfieldPropertyDecoder.assign`: the loop over
`range(self.bitnum)`. -/
def bitfieldAssign (startbit bitnum : Nat) (desired : List Bool) (data : List Nat) :
    List Nat :=
  (List.range bitnum).foldl (bitfieldAssignStep startbit desired) data

example : bitfieldUpdate 1 8 [0xB0, 0, 0, 0, 0, 0, 0, 0, 0, 0, 0, 0] =
    [false, true, true, false, false, false, false, false] := by decide

/-! Byte-level effect of the two write forms used by
`BitfieldPropertyDecoder.assign`. -/

theorem orByte_testBit_ne (x j j' : Nat) (hj' : j' < 8) (hne : j ≠ j') :
    ((x ||| (1 <<< j)) &&& 0xFF).testBit j' = x.testBit j' := by
  have hd : (decide (j' < 8)) = true := by simp [hj']
  simp only [Nat.testBit_land, Nat.testBit_lor, shiftLeft_one_pow, testBit_255,
    Nat.testBit_two_pow_of_ne hne, hd, Bool.and_true, Bool.or_false]

theorem orByte_testBit_self (x j : Nat) (hj : j < 8) :
    ((x ||| (1 <<< j)) &&& 0xFF).testBit j = true := by
  have hd : (decide (j < 8)) = true := by simp [hj]
  simp only [Nat.testBit_land, Nat.testBit_lor, shiftLeft_one_pow, testBit_255,
    Nat.testBit_two_pow_self, hd, Bool.and_true, Bool.or_true]

theorem clearByte_testBit_ne (x j j' : Nat) (hj' : j' < 8) (hne : j ≠ j') :
    (((((x ^^^ 0xFF) &&& 0xFF) ||| (1 <<< j)) ^^^ 0xFF) &&& 0xFF).testBit j' = x.testBit j' := by
  have hd : (decide (j' < 8)) = true := by simp [hj']
  simp only [Nat.testBit_land, Nat.testBit_lor, Nat.testBit_xor, shiftLeft_one_pow,
    testBit_255, Nat.testBit_two_pow_of_ne hne, hd, Bool.and_true, Bool.or_false]
  cases x.testBit j' <;> rfl

theorem clearByte_testBit_self (x j : Nat) (hj : j < 8) :
    (((((x ^^^ 0xFF) &&& 0xFF) ||| (1 <<< j)) ^^^ 0xFF) &&& 0xFF).testBit j = false := by
  have hd : (decide (j < 8)) = true := by simp [hj]
  simp only [Nat.testBit_land, Nat.testBit_lor, Nat.testBit_xor, shiftLeft_one_pow,
    testBit_255, Nat.testBit_two_pow_self, hd, Bool.and_true, Bool.or_true]
  cases x.testBit j <;> rfl

theorem getBitPos_set_or_frame (data : List Nat) (a q : Nat) (hq1 : 1 ≤ q)
    (hne : q ≠ a + 1) :
    getBitPos q (data.set (a / 8) ((data.getD (a / 8) 0 ||| (1 <<< (7 - a % 8))) &&& 0xFF)) =
      getBitPos q data := by
  rcases Nat.lt_or_ge (a / 8) data.length with hlt | hge
  · by_cases hb : (q - 1) / 8 = a / 8
    · rw [getBitPos_testBit, getBitPos_testBit, hb, getD_set_self _ _ _ hlt]
      rw [orByte_testBit_ne _ _ _ (by omega) (by omega)]
    · rw [getBitPos_testBit, getBitPos_testBit, getD_set_ne _ _ _ _ (fun hc => hb hc.symm)]
  · rw [List.set_eq_of_length_le hge]

theorem getBitPos_set_clear_frame (data : List Nat) (a q : Nat) (hq1 : 1 ≤ q)
    (hne : q ≠ a + 1) :
    getBitPos q (data.set (a / 8)
      (((((data.getD (a / 8) 0 ^^^ 0xFF) &&& 0xFF) ||| (1 <<< (7 - a % 8))) ^^^ 0xFF) &&& 0xFF)) =
      getBitPos q data := by
  rcases Nat.lt_or_ge (a / 8) data.length with hlt | hge
  · by_cases hb : (q - 1) / 8 = a / 8
    · rw [getBitPos_testBit, getBitPos_testBit, hb, getD_set_self _ _ _ hlt]
      rw [clearByte_testBit_ne _ _ _ (by omega) (by omega)]
    · rw [getBitPos_testBit, getBitPos_testBit, getD_set_ne _ _ _ _ (fun hc => hb hc.symm)]
  · rw [List.set_eq_of_length_le hge]

theorem getBitPos_set_or_get (data : List Nat) (a : Nat) (h : a / 8 < data.length) :
    getBitPos (a + 1) (data.set (a / 8) ((data.getD (a / 8) 0 ||| (1 <<< (7 - a % 8))) &&& 0xFF)) =
      1 := by
  rw [getBitPos_testBit, show a + 1 - 1 = a from rfl, getD_set_self _ _ _ h,
    orByte_testBit_self _ _ (by omega)]
  rfl

theorem getBitPos_set_clear_get (data : List Nat) (a : Nat) (h : a / 8 < data.length) :
    getBitPos (a + 1) (data.set (a / 8)
      (((((data.getD (a / 8) 0 ^^^ 0xFF) &&& 0xFF) ||| (1 <<< (7 - a % 8))) ^^^ 0xFF) &&& 0xFF)) =
      0 := by
  rw [getBitPos_testBit, show a + 1 - 1 = a from rfl, getD_set_self _ _ _ h,
    clearByte_testBit_self _ _ (by omega)]
  rfl

/-- Reading formula of the bitfield decoder agrees with `getBitPos` at the
1-indexed position `startbit + i + 1`. -/
theorem bitfieldRead_eq (startbit i : Nat) (data : List Nat) :
    ((data.getD (bitfieldByteNum startbit i) 0 >>> (7 - bitfieldBitNum startbit i)) &&& 1) =
      getBitPos (startbit + i + 1) data := by
  rw [getBitPos, shiftRight3_eq, and7_eq, bitfieldByteNum, bitfieldBitNum]
  rfl

theorem bitfieldAssignStep_length (startbit : Nat) (desired : List Bool)
    (data : List Nat) (idx : Nat) :
    (bitfieldAssignStep startbit desired data idx).length = data.length := by
  rw [bitfieldAssignStep]
  split
  · split
    · rfl
    · split <;> simp
  · split
    · rfl
    · split <;> simp

/-- One bitfield-assign step leaves every other 1-indexed bit position
unchanged. -/
theorem bitfieldAssignStep_frame (startbit : Nat) (desired : List Bool)
    (data : List Nat) (idx q : Nat) (hq1 : 1 ≤ q) (hq : q ≠ startbit + idx + 1) :
    getBitPos q (bitfieldAssignStep startbit desired data idx) = getBitPos q data := by
  rw [bitfieldAssignStep]
  split
  · split
    · rfl
    · split
      · exact getBitPos_set_or_frame data (startbit + idx) q hq1 hq
      · exact getBitPos_set_clear_frame data (startbit + idx) q hq1 hq
  · split
    · rfl
    · split
      · exact getBitPos_set_or_frame data (startbit + idx) q hq1 hq
      · exact getBitPos_set_clear_frame data (startbit + idx) q hq1 hq

/-- One bitfield-assign step makes its own bit equal the desired value,
provided the addressed byte is inside the buffer. -/
theorem bitfieldAssignStep_get (startbit : Nat) (desired : List Bool)
    (data : List Nat) (idx : Nat) (h : (startbit + idx) / 8 < data.length) :
    getBitPos (startbit + idx + 1) (bitfieldAssignStep startbit desired data idx) =
      (if desired.getD idx false then 1 else 0) := by
  have hread : getBitPos (startbit + idx + 1) data =
      (data.getD (bitfieldByteNum startbit idx) 0 >>> (7 - bitfieldBitNum startbit idx)) &&& 1 :=
    (bitfieldRead_eq _ _ _).symm
  have hle : ((data.getD (bitfieldByteNum startbit idx) 0 >>>
      (7 - bitfieldBitNum startbit idx)) &&& 1) ≤ 1 := Nat.and_le_right
  rw [bitfieldAssignStep]
  split
  case isTrue hdes =>
    split
    case isTrue heq =>
      rw [hread]
      exact heq
    case isFalse heq =>
      rw [if_pos (And.intro (by omega) rfl)]
      exact getBitPos_set_or_get data (startbit + idx) h
  case isFalse hdes =>
    split
    case isTrue heq =>
      rw [hread]
      exact heq
    case isFalse heq =>
      rw [if_neg (by omega)]
      exact getBitPos_set_clear_get data (startbit + idx) h

theorem bitfieldAssign_length (startbit bitnum : Nat) (desired : List Bool)
    (data : List Nat) :
    (bitfieldAssign startbit bitnum desired data).length = data.length := by
  induction bitnum generalizing data with
  | zero => rfl
  | succ n ih =>
    rw [bitfieldAssign, List.range_succ, List.foldl_append, List.foldl_cons, List.foldl_nil]
    rw [bitfieldAssignStep_length]
    exact ih data

theorem bitfieldAssign_frame (startbit bitnum : Nat) (desired : List Bool)
    (data : List Nat) (q : Nat) (hq1 : 1 ≤ q)
    (hq : ∀ i, i < bitnum → q ≠ startbit + i + 1) :
    getBitPos q (bitfieldAssign startbit bitnum desired data) = getBitPos q data := by
  induction bitnum generalizing data with
  | zero => rfl
  | succ n ih =>
    rw [bitfieldAssign, List.range_succ, List.foldl_append, List.foldl_cons, List.foldl_nil]
    rw [bitfieldAssignStep_frame _ _ _ _ _ hq1 (hq n (by omega))]
    exact ih data (fun i hi => hq i (by omega))

/-- After `bitfieldAssign`, every addressed bit equals the desired value. -/
theorem bitfieldAssign_get (startbit bitnum : Nat) (desired : List Bool)
    (data : List Nat) (i : Nat) (hi : i < bitnum)
    (h : ∀ k, k < bitnum → (startbit + k) / 8 < data.length) :
    getBitPos (startbit + i + 1) (bitfieldAssign startbit bitnum desired data) =
      (if desired.getD i false then 1 else 0) := by
  induction bitnum generalizing data with
  | zero => omega
  | succ n ih =>
    rw [bitfieldAssign, List.range_succ, List.foldl_append, List.foldl_cons, List.foldl_nil]
    rcases Nat.lt_or_ge i n with hlt | hge
    · rw [bitfieldAssignStep_frame _ _ _ _ _ (by omega) (by omega)]
      exact ih data hlt (fun k hk => h k (by omega))
    · have hieq : i = n := by omega
      subst hieq
      have hlen : (startbit + i) / 8 < (bitfieldAssign startbit i desired data).length := by
        rw [bitfieldAssign_length]
        exact h i (by omega)
      exact bitfieldAssignStep_get _ _ _ _ hlen

/-- Round trip of the bitfield decoder: assigning a desired list of
`bitnum` booleans and decoding again returns it, provided every addressed
byte is inside the buffer. -/
theorem bitfieldUpdate_assign (startbit bitnum : Nat) (desired : List Bool)
    (data : List Nat) (hlen : desired.length = bitnum)
    (h : ∀ k, k < bitnum → (startbit + k) / 8 < data.length) :
    bitfieldUpdate startbit bitnum (bitfieldAssign startbit bitnum desired data) = desired := by
  rw [bitfieldUpdate]
  apply List.ext_getElem
  · simp [hlen]
  · intro i h1 h2
    rw [List.getElem_map, List.getElem_range]
    have hi : i < bitnum := by simpa using h1
    rw [bitfieldRead_eq, bitfieldAssign_get _ _ _ _ _ hi h]
    have hd : desired.getD i false = desired[i] := List.getD_eq_getElem _ _ h2
    rw [hd]
    rcases hv : desired[i] <;> rfl

/-! Unified field layer: the four `PropertyDecoder` subclasses as a tagged
union, with the live widget state modelled as a `Display` value. -/

/-- Configuration of one field, mirroring the constructor arguments of the
four decoder classes built in `setSprite` (`f[0] == 0,1,2,3`). -/
inductive Field where
  | checkbox (bit : BitSpec) (mask : Nat)
  | enum (bit : BitSpec) (entries : List Nat)
  | value (bit : BitSpec) (max : Nat)
  | bitfield (startbit bitnum : Nat)
deriving DecidableEq, Repr

/-- Displayed state of one field's widget: checkbox state, combobox
selection (`none` is `setCurrentIndex(-1)`), spinbox value, bitfield
checkbox row. -/
inductive Display where
  | checked (b : Bool)
  | sel (i : Option Nat)
  | num (n : Nat)
  | bits (l : List Bool)
deriving DecidableEq, Repr

instance : Inhabited Field := ⟨.value (.scalar 1) 0⟩

instance : Inhabited Display := ⟨.num 0⟩

/-- Dispatch of the four `update` methods: decode the buffer into the
field's display value. -/
def fieldUpdate : Field → List Nat → Display
  | .checkbox bit mask, data => .checked (checkboxUpdate bit mask data)
  | .enum bit entries, data => .sel (listUpdate entries bit data)
  | .value bit _, data => .num (valueUpdate bit data)
  | .bitfield sb bn, data => .bits (bitfieldUpdate sb bn data)

/-- Dispatch of the four `assign` methods: encode the widget state (the
given display value) into the buffer.  The enum decoder is only ever
invoked with a concrete selection (`HandleIndexChanged` ignores
`index < 0` in the source), so a missing selection defaults harmlessly. -/
def fieldAssign : Field → Display → List Nat → Nat ⊕ List Nat
  | .checkbox bit mask, d, data =>
    checkboxAssign bit mask (match d with | .checked b => b | _ => false) data
  | .enum bit entries, d, data =>
    listAssign entries bit (match d with | .sel (some i) => i | _ => 0) data
  | .value bit _, d, data =>
    valueAssign bit (match d with | .num n => n | _ => 0) data
  | .bitfield sb bn, d, data =>
    .inr (bitfieldAssign sb bn (match d with | .bits l => l | _ => []) data)

/-! Raw hex editing: Python's `text.replace(' ', '')` and
`bytes.fromhex(text)`. -/

/-- Value of one hexadecimal digit character. -/
def hexVal (c : Char) : Option Nat :=
  if '0' ≤ c ∧ c ≤ '9' then some (c.toNat - '0'.toNat)
  else if 'a' ≤ c ∧ c ≤ 'f' then some (c.toNat - 'a'.toNat + 10)
  else if 'A' ≤ c ∧ c ≤ 'F' then some (c.toNat - 'A'.toNat + 10)
  else none

/-- Model of Python's `bytes.fromhex`: ASCII spaces are skipped between
byte pairs, each byte is two consecutive hexadecimal digits, and a space
inside a pair (or any other character) raises `ValueError`, modelled as
`none`.  (CPython 3.7+ also skips other ASCII whitespace between pairs;
every input the editor accepts contains only spaces and hex digits, where
all versions agree.) -/
def fromhexAux : List Char → Option (List Nat)
  | [] => some []
  | c :: rest =>
    if c = ' ' then fromhexAux rest
    else
      match rest with
      | [] => none
      | c2 :: rest2 =>
        match hexVal c, hexVal c2 with
        | some h, some l => (fromhexAux rest2).map (fun bs => (16 * h + l) :: bs)
        | _, _ => none

example : fromhexAux "0011 aB".toList = some [0, 17, 171] := by decide

example : fromhexAux "0 0".toList = none := by decide

/-- Successful `fromhexAux` consumes exactly two hex digits per output
byte: the space-stripped input length is twice the byte count. -/
theorem fromhexAux_single (c : Char) (hc : ¬c = ' ') : fromhexAux [c] = none := by
  show (if c = ' ' then fromhexAux [] else none) = none
  rw [if_neg hc]

theorem fromhexAux_pair (c c2 : Char) (rest2 : List Char) (hc : ¬c = ' ') :
    fromhexAux (c :: c2 :: rest2) =
      (match hexVal c, hexVal c2 with
       | some h, some l => (fromhexAux rest2).map (fun bs => (16 * h + l) :: bs)
       | _, _ => none) := by
  show (if c = ' ' then fromhexAux (c2 :: rest2) else _) = _
  rw [if_neg hc]

theorem fromhexAux_len : ∀ cs bs, fromhexAux cs = some bs →
    (cs.filter (fun c => c ≠ ' ')).length = 2 * bs.length := by
  intro cs
  induction cs using fromhexAux.induct with
  | case1 =>
    intro bs h
    rw [show fromhexAux [] = some [] from rfl] at h
    cases h
    simp
  | case2 rest ih =>
    intro bs h
    have h2 : fromhexAux rest = some bs := by
      rw [fromhexAux.eq_def] at h
      simpa using h
    simpa using ih bs h2
  | case3 c hc =>
    intro bs h
    rw [fromhexAux_single c hc] at h
    cases h
  | case4 c hc c2 rest2 hv lv hl hh ih =>
    intro bs h
    rw [fromhexAux_pair c c2 rest2 hc] at h
    simp only [hh, hl] at h
    rcases hrec : fromhexAux rest2 with _ | bs0 <;> rw [hrec] at h <;> simp at h
    have hbs : bs = (16 * hv + lv) :: bs0 := h.symm
    subst hbs
    have h2 : c2 ≠ ' ' := by
      intro hcc
      subst hcc
      rw [show hexVal ' ' = none from rfl] at hl
      cases hl
    have hrest := ih bs0 hrec
    simp at hrest
    simp [List.filter_cons, hc, h2]
    omega
  | case5 c hc c2 rest2 hnone =>
    intro bs h
    rw [fromhexAux_pair c c2 rest2 hc] at h
    rcases hh : hexVal c with _ | x <;> rcases hl : hexVal c2 with _ | y <;>
        simp only [hh, hl] at h <;>
      first
        | cases h
        | exact (hnone x y hh hl).elim

/-! The editor state machine (`SpriteEditorWidget`): current buffer,
re-entrancy guard `UpdateFlag`, bound fields with their displayed values,
and the raw editor's invalid-style flag. -/

structure Editor where
  data : List Nat
  updateFlag : Bool
  fields : List Field
  displays : List Display
  rawInvalid : Bool
deriving DecidableEq, Repr

/-- Observable effects of a handler run: a programmatic push of a decoded
value into field `i`'s widget (recording the value of `UpdateFlag` at the
moment of the push), and the `DataUpdate` signal emission. -/
inductive Ev where
  | push (i : Nat) (flagAtPush : Bool) (v : Display)
  | dataUpdate (d : List Nat)
deriving DecidableEq, Repr

def isDataUpdate : Ev → Bool
  | .dataUpdate _ => true
  | _ => false

/-- Translation of `SpriteEditorWidget.HandleRawDataEdited`:
`raw = text.replace(' ', '')`; if `len(raw) == 24` and
`bytes.fromhex(text)` succeeds, adopt the parsed buffer, set the guard,
push every field, clear the guard and emit `DataUpdate`; otherwise colour
the editor and change nothing. -/
def HandleRawDataEdited (st : Editor) (text : List Char) : Editor × List Ev :=
  let raw := text.filter (fun c => c ≠ ' ')
  match (if raw.length = 24 then fromhexAux text else none) with
  | none => ({ st with rawInvalid := true }, [])
  | some d =>
    let st1 : Editor := { st with data := d, rawInvalid := false, updateFlag := true }
    let pushes := (List.range st1.fields.length).map
      (fun j => Ev.push j st1.updateFlag (fieldUpdate (st1.fields.getD j default) d))
    ({ st1 with
        displays := st1.fields.map (fun f => fieldUpdate f d),
        updateFlag := false },
      pushes ++ [Ev.dataUpdate d])

/-- Translation of `SpriteEditorWidget.HandleFieldUpdate`: if the guard is
set, return immediately; otherwise re-encode the buffer through field
`i`'s `assign`, push the re-decoded value to every *other* field (the
loop does not touch `UpdateFlag`, so each push records the guard still
clear), and emit one `DataUpdate`.  `none` models the `TypeError` the
source would raise downstream when `assign` soft-fails to the integer 0
(`self.data = 0` followed by `data[0]`). -/
def HandleFieldUpdate (st : Editor) (i : Nat) : Option (Editor × List Ev) :=
  if st.updateFlag then some (st, [])
  else
    match fieldAssign (st.fields.getD i default) (st.displays.getD i default) st.data with
    | .inl _ => none
    | .inr d =>
      let pushes := ((List.range st.fields.length).filter (fun j => j ≠ i)).map
        (fun j => Ev.push j st.updateFlag (fieldUpdate (st.fields.getD j default) d))
      some ({ st with
          data := d,
          rawInvalid := false,
          displays := (List.range st.fields.length).map
            (fun j => if j = i then st.displays.getD j default
                      else fieldUpdate (st.fields.getD j default) d) },
        pushes ++ [Ev.dataUpdate d])

/-- Translation of `SpriteEditorWidget.update`: sets the guard, refreshes
the raw editor and every field from the current buffer, clears the
guard.  No `DataUpdate` is emitted. -/
def editorUpdate (st : Editor) : Editor × List Ev :=
  let st1 : Editor := { st with updateFlag := true, rawInvalid := false }
  let pushes := (List.range st1.fields.length).map
    (fun j => Ev.push j st1.updateFlag (fieldUpdate (st1.fields.getD j default) st1.data))
  ({ st1 with
      displays := st1.fields.map (fun f => fieldUpdate f st1.data),
      updateFlag := false },
    pushes)

/-! Claim theorems. -/

/-- Twelve bytes with byte 0 equal to 1. -/
def byte0One : List Nat := [1, 0, 0, 0, 0, 0, 0, 0, 0, 0, 0, 0]

/-- Twelve bytes with byte 0 equal to 2. -/
def byte0Two : List Nat := [2, 0, 0, 0, 0, 0, 0, 0, 0, 0, 0, 0]

/-- C1: the claim says the whole-byte fast path of `retrieve` and
`insertvalue` produces exactly the same result as the general bit-by-bit
path on the same byte-aligned 8-bit range, for all byte values.  The code
violates this: on the range `(1, 8)` (which triggers the fast guard
`bit[1] == bit[0] + 7 and bit[0] & 1 == 1`) the fast path reads/writes
the whole byte while the general loop `range(bit[0], bit[1])` covers only
the 7 positions 1..7.  At buffer byte 0 = 1 the fast get returns 1 but
the general path returns 0; writing value 1 into a zero buffer sets byte
0 to 1 on the fast path but to 2 on the general path. -/
theorem c1_fast_path_not_equivalent :
    retrieve (.range 1 8) byte0One = 1 ∧
    retrieveGeneral 1 8 byte0One = 0 ∧
    insertvalue (.range 1 8) zeroData 1 = Sum.inr byte0One ∧
    insertGeneral 1 8 zeroData 1 = byte0Two := by
  refine ⟨by decide, by decide, by decide, by decide⟩

/-- Reading of a tuple range as the specification words it: iterate the
positions from `start` to `end` INCLUSIVE.  Modelled from the spec
(section 4.1, "General path: iterate bit positions from `start` to `end`
inclusive"); compare with the source's `retrieveGeneral`, whose Python
loop `range(bit[0], bit[1])` excludes `end`. -/
def specRetrieveGeneral (s e : Nat) (data : List Nat) : Nat :=
  (List.range' s (e - s + 1)).foldl (fun v n => (v <<< 1) ||| getBitPos n data) 0

/-- Twelve bytes with byte 0 equal to 0xC0 (top two bits set). -/
def byte0C0 : List Nat := [0xC0, 0, 0, 0, 0, 0, 0, 0, 0, 0, 0, 0]

/-- C3 counterexample: on the tuple range `(1, 2)` over a buffer whose
byte 0 is `0b11000000`, the claim's inclusive loop would extract the two
bits 1 and 2 (value 3), but the source's general path extracts only
`end - start = 1` bit (value 1). -/
theorem c3_counterexample :
    retrieve (.range 1 2) byte0C0 = 1 ∧
    specRetrieveGeneral 1 2 byte0C0 = 3 ∧
    retrieve (.range 1 2) byte0C0 ≠ specRetrieveGeneral 1 2 byte0C0 := by
  refine ⟨by decide, by decide, by decide⟩

/-- C3 (amended): on the general path the source extracts exactly
`end - start` bits — the loop excludes `end` — iterating positions
`start..end-1` with the claimed per-position formula, MSB of the range
first: bit `k` of the result is the buffer bit at position `end - 1 - k`. -/
theorem c3_general_path_width (s e : Nat) (data : List Nat) (hs : 1 ≤ s) (hse : s ≤ e)
    (hnotfast : ¬(e = s + 7 ∧ s &&& 1 = 1)) :
    retrieve (.range s e) data < 2 ^ (e - s) ∧
    ∀ k, k < e - s →
      (retrieve (.range s e) data).testBit k = decide (getBitPos (e - 1 - k) data = 1) := by
  rw [retrieve, if_neg hnotfast]
  obtain ⟨w, rfl⟩ : ∃ w, e = s + w := ⟨e - s, by omega⟩
  rw [show s + w - s = w from by omega]
  refine ⟨retrieveGeneral_lt s w data, fun k hk => ?_⟩
  rw [retrieveGeneral_testBit s w data k hk]

/-- C3 witness: concrete instance of the amended general-path theorem on
range `(1, 9)` (8 bits, not fast because `9 ≠ 1 + 7`). -/
theorem c3_general_path_width_witness :
    retrieve (.range 1 9) byte0C0 < 2 ^ 8 ∧
    (retrieve (.range 1 9) byte0C0).testBit 7 = decide (getBitPos 1 byte0C0 = 1) := by
  have h := c3_general_path_width 1 9 byte0C0 (by decide) (by decide) (by decide)
  exact ⟨h.1, h.2 7 (by decide)⟩

/-- C4: on a scalar position strictly beyond the buffer, `retrieve`
returns 0 as claimed, but `insertvalue` returns the Python integer 0
(`return 0`), not the unmodified buffer the claim (and every caller)
expects. -/
theorem c4_scalar_soft_fail (p v : Nat) (data : List Nat) (hp : 8 * data.length < p) :
    retrieve (.scalar p) data = 0 ∧ insertvalue (.scalar p) data v = Sum.inl 0 := by
  have hge : data.length ≤ (p - 1) >>> 3 := by
    rw [shiftRight3_eq]
    omega
  constructor
  · rw [retrieve, if_pos hge]
  · rw [insertvalue, if_pos hge]

/-- C4 witness: scalar bit 97 on the 12-byte zero buffer. -/
theorem c4_scalar_soft_fail_witness :
    retrieve (.scalar 97) zeroData = 0 ∧ insertvalue (.scalar 97) zeroData 1 = Sum.inl 0 :=
  c4_scalar_soft_fail 97 1 zeroData (by decide)

/-- Twelve bytes with byte 0 equal to 0b10110000. -/
def byte0B0 : List Nat := [0xB0, 0, 0, 0, 0, 0, 0, 0, 0, 0, 0, 0]

/-- C5 counterexample: the claim predicts that
`BitArray{startBit=1, count=8}` over byte 0 = `0b10110000` decodes to
`[true,false,true,true,false,false,false,false]` (reading bit `i` at the
1-indexed position `startBit + i`).  The code treats `startbit + i` as a
0-indexed absolute bit position (`byteNum = adjustedIdx // 8`,
offset `adjustedIdx % 8` from the MSB), so it decodes to
`[false,true,true,false,false,false,false,false]`. -/
theorem c5_counterexample :
    bitfieldUpdate 1 8 byte0B0 = [false, true, true, false, false, false, false, false] ∧
    bitfieldUpdate 1 8 byte0B0 ≠ [true, false, true, true, false, false, false, false] := by
  refine ⟨by decide, by decide⟩

/-- C5 (amended): with the code's addressing (bit `i` at 0-indexed
absolute position `startbit + i`), the scenario buffer decodes to
`[false,true,true,false,false,false,false,false]`; encoding index 1 to
true and re-decoding leaves index 0 at its prior value `false` and index
1 at `true` (non-interference across bits holds). -/
theorem c5_bitarray_scenario :
    bitfieldUpdate 1 8 byte0B0 = [false, true, true, false, false, false, false, false] ∧
    (bitfieldUpdate 1 8
        (bitfieldAssign 1 8 ((bitfieldUpdate 1 8 byte0B0).set 1 true) byte0B0)).getD 0 true =
      false ∧
    (bitfieldUpdate 1 8
        (bitfieldAssign 1 8 ((bitfieldUpdate 1 8 byte0B0).set 1 true) byte0B0)).getD 1 false =
      true := by
  refine ⟨by decide, by decide, by decide⟩

/-- C10: the bitfield decoder indexes the buffer with no bounds guard
(unlike the scalar soft-fail of `retrieve`/`insertvalue`); under the
precondition `startbit + bitnum ≤ 96` over the 12-byte buffer, every byte
index `(startbit + i) / 8` it computes is within bounds, so the
out-of-range branch is unreachable and `assign` preserves the buffer
length. -/
theorem c10_bitfield_in_bounds (startbit bitnum : Nat) (data : List Nat)
    (hlen : data.length = 12) (hfit : startbit + bitnum ≤ 96) :
    (∀ i, i < bitnum → bitfieldByteNum startbit i < data.length) ∧
    (∀ desired, (bitfieldAssign startbit bitnum desired data).length = data.length) := by
  constructor
  · intro i hi
    rw [bitfieldByteNum, hlen]
    omega
  · intro desired
    exact bitfieldAssign_length startbit bitnum desired data

/-- C10 witness: the scenario field `startbit = 1`, `bitnum = 8` on the
zero buffer. -/
theorem c10_bitfield_in_bounds_witness :
    bitfieldByteNum 1 7 < zeroData.length ∧
    (bitfieldAssign 1 8 [true, true, true, true, true, true, true, true] zeroData).length =
      zeroData.length := by
  have h := c10_bitfield_in_bounds 1 8 zeroData (by decide) (by decide)
  exact ⟨h.1 7 (by decide), h.2 _⟩

/-- C2 counterexample: a `Bounded`/value field on the in-buffer range
`(1, 2)` — a 2-bit field under the specification's inclusive-width
convention, so `maxExclusive = 4` and the value 2 is in its legal
domain — encodes 2 into the zero buffer and decodes back 0, because the
code's general write loop stores only `end - start = 1` bit. -/
theorem c2_counterexample :
    valueAssign (.range 1 2) 2 zeroData = Sum.inr zeroData ∧
    valueUpdate (.range 1 2) zeroData = 0 ∧
    (2 : Nat) ≠ 0 := by
  refine ⟨by decide, by decide, by decide⟩

/-- Buffer carried by an `insertvalue`-style result (`Sum.inr`); the
integer soft-fail (`Sum.inl`) has no buffer and maps to `[]`. -/
def getBuffer : Nat ⊕ List Nat → List Nat
  | .inl _ => []
  | .inr l => l

theorem widthOf_le_checkboxLength (bit : BitSpec) : widthOf bit ≤ checkboxLength bit := by
  rcases bit with b | ⟨s, e⟩
  · rw [widthOf, checkboxLength]
  · rw [widthOf, checkboxLength]
    split
    case isTrue h => omega
    case isFalse h => omega

theorem masked_or_eq (old keep mask w : Nat) (hmask : mask < 2 ^ w) :
    (((old &&& keep) ||| mask) % 2 ^ w) &&& mask = mask := by
  refine Nat.eq_of_testBit_eq fun k => ?_
  rw [Nat.testBit_land, Nat.testBit_mod_two_pow, Nat.testBit_lor]
  by_cases hk : k < w
  · have hd : (decide (k < w)) = true := by simp [hk]
    rw [hd]
    cases hm : mask.testBit k <;> simp [hm]
  · have hd : (decide (k < w)) = false := by simp [hk]
    have hmb : mask.testBit k = false :=
      Nat.testBit_lt_two_pow
        (lt_of_lt_of_le hmask (Nat.pow_le_pow_right (by omega) (by omega)))
    rw [hd, hmb]
    simp

theorem masked_and_keep_zero (old mask w L : Nat) (hwL : w ≤ L) :
    ((old &&& (mask ^^^ (2 ^ L - 1))) % 2 ^ w) &&& mask = 0 := by
  refine Nat.eq_of_testBit_eq fun k => ?_
  rw [Nat.testBit_land, Nat.testBit_mod_two_pow, Nat.testBit_land, Nat.testBit_xor,
    Nat.testBit_two_pow_sub_one]
  by_cases hk : k < w
  · have hd : (decide (k < w)) = true := by simp [hk]
    have hdL : (decide (k < L)) = true := by simp [lt_of_lt_of_le hk hwL]
    rw [hd, hdL]
    cases hm : mask.testBit k <;> cases ho : old.testBit k <;> simp [hm, ho]
  · have hd : (decide (k < w)) = false := by simp [hk]
    rw [hd]
    simp

/-- C2 (amended): the round trip `decode (encode buffer v) = v` holds for
each of the four field kinds once the encoded value fits the bits the
code actually writes — width `widthOf` (8 on the fast path, `end - start`
on the end-exclusive general path, 1 for a scalar) — and, for a flag,
`0 < mask < 2 ^ widthOf`; for a bit array, all addressed bits must lie in
the 12-byte buffer.  The claim as stated fails because the spec's
inclusive convention allows one more bit than the code writes
(see the counterexample). -/
theorem c2_roundtrip :
    (∀ bit mask checked data, posOK bit data → 0 < mask → mask < 2 ^ widthOf bit →
      checkboxUpdate bit mask (getBuffer (checkboxAssign bit mask checked data)) = checked) ∧
    (∀ bit entries idx data, posOK bit data → idx < entries.length →
      entries.getD idx 0 < 2 ^ widthOf bit →
      listUpdate entries bit (getBuffer (listAssign entries bit idx data)) =
        some (entries.indexOf (entries.getD idx 0)) ∧
      entries.getD (entries.indexOf (entries.getD idx 0)) 0 = entries.getD idx 0) ∧
    (∀ bit v data, posOK bit data → v < 2 ^ widthOf bit →
      valueUpdate bit (getBuffer (valueAssign bit v data)) = v) ∧
    (∀ startbit bitnum desired data, desired.length = bitnum → data.length = 12 →
      startbit + bitnum ≤ 96 →
      bitfieldUpdate startbit bitnum (bitfieldAssign startbit bitnum desired data) = desired) := by
  refine ⟨?_, ?_, ?_, ?_⟩
  · -- checkbox / Flag
    intro bit mask checked data hok hm0 hmw
    rw [checkboxAssign]
    obtain ⟨out, hout, hret⟩ := insertvalue_retrieve bit data
      ((retrieve bit data &&& (mask ^^^ checkboxXormask bit)) |||
        (if checked then mask else 0)) hok
    rw [hout]
    rw [show getBuffer (Sum.inr out) = out from rfl]
    rw [checkboxUpdate, hret]
    rcases checked with _ | _
    · rw [show (if false then mask else 0) = 0 from rfl, Nat.or_zero]
      rw [checkboxXormask, xormaskFold_eq]
      rw [masked_and_keep_zero _ _ _ _ (widthOf_le_checkboxLength bit)]
      rw [beq_eq_false_iff_ne]
      omega
    · rw [show (if true then mask else 0) = mask from rfl]
      rw [masked_or_eq _ _ _ _ hmw]
      exact beq_self_eq_true mask
  · -- enum / list
    intro bit entries idx data hok hidx hvw
    have hmem : entries.getD idx 0 ∈ entries := by
      rw [List.getD_eq_getElem entries 0 hidx]
      exact List.getElem_mem hidx
    rw [listAssign]
    obtain ⟨out, hout, hret⟩ := insertvalue_retrieve bit data (entries.getD idx 0) hok
    rw [hout]
    rw [show getBuffer (Sum.inr out) = out from rfl]
    rw [listUpdate]
    rw [hret, Nat.mod_eq_of_lt hvw]
    constructor
    · rw [if_pos (List.elem_eq_true_of_mem hmem)]
    · have hlt := List.indexOf_lt_length.mpr hmem
      rw [List.getD_eq_getElem entries 0 hlt]
      exact List.getElem_indexOf hlt
  · -- bounded / value
    intro bit v data hok hvw
    rw [valueAssign]
    obtain ⟨out, hout, hret⟩ := insertvalue_retrieve bit data v hok
    rw [hout]
    rw [show getBuffer (Sum.inr out) = out from rfl]
    rw [valueUpdate, hret, Nat.mod_eq_of_lt hvw]
  · -- bit array
    intro startbit bitnum desired data hdlen hlen hfit
    apply bitfieldUpdate_assign startbit bitnum desired data hdlen
    intro k hk
    rw [hlen]
    omega

/-- C2 witness: the bounded-field round trip at range `(1, 9)` (an
8-bit general-path field) with value 171 on the zero buffer. -/
theorem c2_roundtrip_witness :
    valueUpdate (.range 1 9) (getBuffer (valueAssign (.range 1 9) 171 zeroData)) = 171 :=
  c2_roundtrip.2.2.1 (.range 1 9) 171 zeroData (by decide) (by decide)

theorem retrieve_lt_width (bit : BitSpec) (data : List Nat) (hok : posOK bit data)
    (hbytes : ∀ b ∈ data, b < 256) : retrieve bit data < 2 ^ widthOf bit := by
  rcases bit with b | ⟨s, e⟩
  · rw [retrieve, widthOf]
    split
    · omega
    · have := getBitPos_le_one b data
      omega
  · obtain ⟨hs, hse, hbyte⟩ := hok
    rw [retrieve, widthOf]
    by_cases hfast : e = s + 7 ∧ s &&& 1 = 1
    · rw [if_pos hfast, if_pos hfast]
      have := getD_lt_256 data hbytes (s >>> 3)
      omega
    · rw [if_neg hfast, if_neg hfast]
      obtain ⟨w, rfl⟩ : ∃ w, e = s + w := ⟨e - s, by omega⟩
      rw [show s + w - s = w from by omega]
      exact retrieveGeneral_lt s w data

theorem mod_keep_masked (old mask maskPart w L : Nat) (hwL : w ≤ L) (hold : old < 2 ^ w)
    (hmp : maskPart = mask ∨ maskPart = 0) :
    (((old &&& (mask ^^^ (2 ^ L - 1))) ||| maskPart) % 2 ^ w) &&& (mask ^^^ (2 ^ L - 1)) =
      old &&& (mask ^^^ (2 ^ L - 1)) := by
  refine Nat.eq_of_testBit_eq fun k => ?_
  rw [Nat.testBit_land, Nat.testBit_land, Nat.testBit_mod_two_pow, Nat.testBit_lor,
    Nat.testBit_land, Nat.testBit_xor, Nat.testBit_two_pow_sub_one]
  by_cases hk : k < w
  · have hd : (decide (k < w)) = true := by simp [hk]
    have hdL : (decide (k < L)) = true := by simp [lt_of_lt_of_le hk hwL]
    rw [hd, hdL]
    rcases hmp with rfl | rfl
    · cases hm : maskPart.testBit k <;> cases ho : old.testBit k <;> simp [hm, ho]
    · cases hm : mask.testBit k <;> cases ho : old.testBit k <;>
        simp [hm, ho, Nat.zero_testBit]
  · have hd : (decide (k < w)) = false := by simp [hk]
    have ho : old.testBit k = false :=
      Nat.testBit_lt_two_pow
        (lt_of_lt_of_le hold (Nat.pow_le_pow_right (by omega) (by omega)))
    rw [hd, ho]
    simp

/-- C9: the flag encoder computes exactly
`newValue = (retrieve(bitRange) & (mask XOR xormask)) | (mask if checked
else 0)` and writes it back, so the keep-masked part of the field — every
written bit not covered by `mask` — retains its previous value; and the
spec's concrete scenario holds: on the zero buffer,
`Flag{bitRange=(1,8), mask=0x02}` encoded to true makes byte 0 equal
`0x02`, decodes back as true, and the adjacent mask-`0x01` flag still
decodes as false. -/
theorem c9_flag_encode_preserves (bit : BitSpec) (mask : Nat) (checked : Bool)
    (data : List Nat) (hok : posOK bit data) (hbytes : ∀ b ∈ data, b < 256) :
    (checkboxAssign bit mask checked data =
      insertvalue bit data ((retrieve bit data &&& (mask ^^^ checkboxXormask bit)) |||
        (if checked then mask else 0))) ∧
    (retrieve bit (getBuffer (checkboxAssign bit mask checked data)) &&&
        (mask ^^^ checkboxXormask bit) =
      retrieve bit data &&& (mask ^^^ checkboxXormask bit)) ∧
    (checkboxAssign (.range 1 8) 2 true zeroData = Sum.inr byte0Two ∧
      checkboxUpdate (.range 1 8) 2 byte0Two = true ∧
      checkboxUpdate (.range 1 8) 1 byte0Two = false) := by
  refine ⟨rfl, ?_, by decide, by decide, by decide⟩
  rw [checkboxAssign]
  obtain ⟨out, hout, hret⟩ := insertvalue_retrieve bit data
    ((retrieve bit data &&& (mask ^^^ checkboxXormask bit)) |||
      (if checked then mask else 0)) hok
  rw [hout]
  rw [show getBuffer (Sum.inr out) = out from rfl]
  rw [hret, checkboxXormask, xormaskFold_eq]
  apply mod_keep_masked _ _ _ _ _ (widthOf_le_checkboxLength bit)
    (by
      have := retrieve_lt_width bit data hok hbytes
      exact this)
  rcases checked with _ | _
  · exact Or.inr rfl
  · exact Or.inl rfl

/-- C9 witness: the scenario flag `Flag{bitRange=(1,8), mask=0x02}` over
the zero buffer, instantiating the preservation statement. -/
theorem c9_flag_encode_preserves_witness :
    retrieve (.range 1 8) (getBuffer (checkboxAssign (.range 1 8) 2 true zeroData)) &&&
        (2 ^^^ checkboxXormask (.range 1 8)) =
      retrieve (.range 1 8) zeroData &&& (2 ^^^ checkboxXormask (.range 1 8)) :=
  (c9_flag_encode_preserves (.range 1 8) 2 true zeroData (by decide) (by decide)).2.1

/-! Write and read footprints of the codec, for the non-interference
analysis.  On the (misaligned) fast path the code reads/writes the whole
byte containing `start`, not just the declared positions. -/

/-- Bit positions `insertvalue` actually writes. -/
def writePositions : BitSpec → List Nat
  | .range s e =>
    if e = s + 7 ∧ s &&& 1 = 1 then List.range' (8 * ((s - 1) / 8) + 1) 8
    else List.range' s (e - s)
  | .scalar b => [b]

/-- Bit positions `retrieve` actually reads. -/
def readPositions : BitSpec → List Nat
  | .range s e =>
    if e = s + 7 ∧ s &&& 1 = 1 then List.range' (8 * (s / 8) + 1) 8
    else List.range' s (e - s)
  | .scalar b => [b]

def fieldWritePositions : Field → List Nat
  | .checkbox bit _ => writePositions bit
  | .enum bit _ => writePositions bit
  | .value bit _ => writePositions bit
  | .bitfield sb bn => (List.range bn).map (fun i => sb + i + 1)

def fieldReadPositions : Field → List Nat
  | .checkbox bit _ => readPositions bit
  | .enum bit _ => readPositions bit
  | .value bit _ => readPositions bit
  | .bitfield sb bn => (List.range bn).map (fun i => sb + i + 1)

/-- Well-formedness of a field against a buffer. -/
def fieldPosOK : Field → List Nat → Prop
  | .checkbox bit _, data => posOK bit data
  | .enum bit _, data => posOK bit data
  | .value bit _, data => posOK bit data
  | .bitfield sb bn, data => ∀ i, i < bn → (sb + i) / 8 < data.length

instance (f : Field) (data : List Nat) : Decidable (fieldPosOK f data) := by
  rcases f <;> simp only [fieldPosOK] <;> infer_instance

theorem insertvalue_inr (bit : BitSpec) (data : List Nat) (v : Nat)
    (hok : posOK bit data) : ∃ out, insertvalue bit data v = Sum.inr out := by
  obtain ⟨out, hout, _⟩ := insertvalue_retrieve bit data v hok
  exact ⟨out, hout⟩

/-- Frame property of `insertvalue`: bit positions outside the write
footprint are unchanged. -/
theorem insertvalue_pos_frame (bit : BitSpec) (data out : List Nat) (v q : Nat)
    (hok : posOK bit data) (hout : insertvalue bit data v = Sum.inr out)
    (hq1 : 1 ≤ q) (hq : q ∉ writePositions bit) :
    getBitPos q out = getBitPos q data := by
  rcases bit with b | ⟨s, e⟩
  · obtain ⟨hb1, hb2⟩ := hok
    rw [insertvalue, shiftRight3_eq, if_neg (by omega)] at hout
    cases hout
    apply setBitPos_bit_frame
    rw [writePositions] at hq
    simp at hq
    omega
  · obtain ⟨hs, hse, hbyte⟩ := hok
    rw [insertvalue] at hout
    rw [writePositions] at hq
    by_cases hfast : e = s + 7 ∧ s &&& 1 = 1
    · rw [if_pos hfast] at hout hq
      cases hout
      have hne : (q - 1) / 8 ≠ (s - 1) / 8 := by
        intro hc
        apply hq
        rw [List.mem_range'_1]
        omega
      rw [getBitPos_testBit, getBitPos_testBit, shiftRight3_eq,
        getD_set_ne _ _ _ _ (fun hc => hne (hc.symm))]
    · rw [if_neg hfast] at hout hq
      cases hout
      rw [List.mem_range'_1] at hq
      exact insertGeneral_frame s e data v q hs hq1 (by omega)

/-- Congruence of `retrieve`: it depends only on the bits of its read
footprint (and on the buffer length for the scalar guard). -/
theorem retrieve_pos_congr (bit : BitSpec) (d1 d2 : List Nat)
    (hlen : d1.length = d2.length)
    (hb1 : ∀ b ∈ d1, b < 256) (hb2 : ∀ b ∈ d2, b < 256)
    (hagree : ∀ q ∈ readPositions bit, getBitPos q d1 = getBitPos q d2) :
    retrieve bit d1 = retrieve bit d2 := by
  rcases bit with b | ⟨s, e⟩
  · rw [retrieve, retrieve, hlen]
    by_cases hg : d2.length ≤ (b - 1) >>> 3
    · rw [if_pos hg, if_pos hg]
    · rw [if_neg hg, if_neg hg]
      have := hagree b (by rw [readPositions]; exact List.mem_singleton.mpr rfl)
      rw [getBitPos, getBitPos] at this ⊢
      exact this
  · rw [retrieve, retrieve]
    by_cases hfast : e = s + 7 ∧ s &&& 1 = 1
    · rw [if_pos hfast, if_pos hfast, shiftRight3_eq]
      refine Nat.eq_of_testBit_eq fun k => ?_
      rcases Nat.lt_or_ge k 8 with hk | hk
      · have hp := hagree (8 * (s / 8) + 8 - k)
          (by
            rw [readPositions, if_pos hfast, List.mem_range'_1]
            omega)
        rw [getBitPos_testBit, getBitPos_testBit] at hp
        have hb : (8 * (s / 8) + 8 - k - 1) / 8 = s / 8 := by omega
        have hj : 7 - (8 * (s / 8) + 8 - k - 1) % 8 = k := by omega
        rw [hb, hj] at hp
        rcases h1 : (d1.getD (s / 8) 0).testBit k <;>
          rcases h2 : (d2.getD (s / 8) 0).testBit k <;>
          rw [h1, h2] at hp <;> first | rfl | (exact absurd hp (by decide))
      · have h1 : (d1.getD (s / 8) 0).testBit k = false :=
          Nat.testBit_lt_two_pow
            (lt_of_lt_of_le (getD_lt_256 d1 hb1 _)
              (by calc (256 : Nat) = 2 ^ 8 := by norm_num
                _ ≤ 2 ^ k := Nat.pow_le_pow_right (by omega) hk))
        have h2 : (d2.getD (s / 8) 0).testBit k = false :=
          Nat.testBit_lt_two_pow
            (lt_of_lt_of_le (getD_lt_256 d2 hb2 _)
              (by calc (256 : Nat) = 2 ^ 8 := by norm_num
                _ ≤ 2 ^ k := Nat.pow_le_pow_right (by omega) hk))
        rw [h1, h2]
    · rw [if_neg hfast, if_neg hfast]
      apply retrieveGeneral_congr
      intro n h1 h2
      apply hagree
      rw [readPositions, if_neg hfast, List.mem_range'_1]
      omega

theorem fieldAssign_inr (A : Field) (dA : Display) (data : List Nat)
    (hA : fieldPosOK A data) : ∃ out, fieldAssign A dA data = Sum.inr out := by
  rcases A with ⟨bit, mask⟩ | ⟨bit, entries⟩ | ⟨bit, mx⟩ | ⟨sb, bn⟩
  · exact insertvalue_inr bit data _ hA
  · exact insertvalue_inr bit data _ hA
  · exact insertvalue_inr bit data _ hA
  · exact ⟨_, rfl⟩

theorem fieldAssign_out_length (A : Field) (dA : Display) (data out : List Nat)
    (hout : fieldAssign A dA data = Sum.inr out) : out.length = data.length := by
  rcases A with ⟨bit, mask⟩ | ⟨bit, entries⟩ | ⟨bit, mx⟩ | ⟨sb, bn⟩
  · exact insertvalue_length bit data out _ hout
  · exact insertvalue_length bit data out _ hout
  · exact insertvalue_length bit data out _ hout
  · cases hout
    exact bitfieldAssign_length _ _ _ _

theorem bitfieldAssignStep_bytes_lt (startbit : Nat) (desired : List Bool)
    (data : List Nat) (idx : Nat) (h : ∀ b ∈ data, b < 256) :
    ∀ b ∈ bitfieldAssignStep startbit desired data idx, b < 256 := by
  intro b hb
  rw [bitfieldAssignStep] at hb
  split at hb <;> split at hb <;>
    first
      | exact h _ hb
      | (split at hb <;> rcases List.mem_or_eq_of_mem_set hb with h1 | h1 <;>
          first
            | exact h _ h1
            | (subst h1; exact lt_of_le_of_lt Nat.and_le_right (by omega)))

theorem bitfieldAssign_bytes_lt (startbit bitnum : Nat) (desired : List Bool)
    (data : List Nat) (h : ∀ b ∈ data, b < 256) :
    ∀ b ∈ bitfieldAssign startbit bitnum desired data, b < 256 := by
  induction bitnum generalizing data with
  | zero => exact h
  | succ n ih =>
    rw [bitfieldAssign, List.range_succ, List.foldl_append, List.foldl_cons, List.foldl_nil]
    exact bitfieldAssignStep_bytes_lt _ _ _ _ (ih data h)

theorem fieldAssign_out_bytes_lt (A : Field) (dA : Display) (data out : List Nat)
    (hbytes : ∀ b ∈ data, b < 256) (hout : fieldAssign A dA data = Sum.inr out) :
    ∀ b ∈ out, b < 256 := by
  rcases A with ⟨bit, mask⟩ | ⟨bit, entries⟩ | ⟨bit, mx⟩ | ⟨sb, bn⟩
  · exact insertvalue_bytes_lt bit data out _ hbytes hout
  · exact insertvalue_bytes_lt bit data out _ hbytes hout
  · exact insertvalue_bytes_lt bit data out _ hbytes hout
  · cases hout
    exact bitfieldAssign_bytes_lt _ _ _ _ hbytes

/-- Frame property of the field encoders: bit positions outside the
field's write footprint are unchanged. -/
theorem fieldAssign_frame (A : Field) (dA : Display) (data out : List Nat)
    (hA : fieldPosOK A data) (hout : fieldAssign A dA data = Sum.inr out)
    (q : Nat) (hq1 : 1 ≤ q) (hq : q ∉ fieldWritePositions A) :
    getBitPos q out = getBitPos q data := by
  rcases A with ⟨bit, mask⟩ | ⟨bit, entries⟩ | ⟨bit, mx⟩ | ⟨sb, bn⟩
  · exact insertvalue_pos_frame bit data out _ q hA hout hq1 hq
  · exact insertvalue_pos_frame bit data out _ q hA hout hq1 hq
  · exact insertvalue_pos_frame bit data out _ q hA hout hq1 hq
  · cases hout
    apply bitfieldAssign_frame _ _ _ _ _ hq1
    intro i hi hc
    apply hq
    rw [fieldWritePositions]
    exact List.mem_map.mpr ⟨i, List.mem_range.mpr hi, hc.symm⟩

/-- Congruence of the field decoders over their read footprint. -/
theorem fieldUpdate_congr (B : Field) (d1 d2 : List Nat)
    (hlen : d1.length = d2.length)
    (hb1 : ∀ b ∈ d1, b < 256) (hb2 : ∀ b ∈ d2, b < 256)
    (hagree : ∀ q ∈ fieldReadPositions B, getBitPos q d1 = getBitPos q d2) :
    fieldUpdate B d1 = fieldUpdate B d2 := by
  rcases B with ⟨bit, mask⟩ | ⟨bit, entries⟩ | ⟨bit, mx⟩ | ⟨sb, bn⟩
  · rw [fieldUpdate, fieldUpdate, checkboxUpdate, checkboxUpdate,
      retrieve_pos_congr bit d1 d2 hlen hb1 hb2 hagree]
  · rw [fieldUpdate, fieldUpdate, listUpdate, listUpdate,
      retrieve_pos_congr bit d1 d2 hlen hb1 hb2 hagree]
  · rw [fieldUpdate, fieldUpdate, valueUpdate, valueUpdate,
      retrieve_pos_congr bit d1 d2 hlen hb1 hb2 hagree]
  · rw [fieldUpdate, fieldUpdate, bitfieldUpdate, bitfieldUpdate]
    congr 1
    apply List.map_congr_left
    intro i hi
    have hp := hagree (sb + i + 1)
      (by
        rw [fieldReadPositions]
        exact List.mem_map.mpr ⟨i, hi, rfl⟩)
    rw [← bitfieldRead_eq, ← bitfieldRead_eq] at hp
    rw [hp]

/-- Positions of a well-formed field's read footprint are 1-indexed. -/
theorem fieldReadPositions_pos (B : Field) (data : List Nat) (hB : fieldPosOK B data) :
    ∀ q ∈ fieldReadPositions B, 1 ≤ q := by
  have hbit : ∀ (bit : BitSpec), posOK bit data → ∀ q ∈ readPositions bit, 1 ≤ q := by
    intro bit hok q hq
    rcases bit with b | ⟨s, e⟩
    · rw [readPositions] at hq
      rcases hok with ⟨h1, _⟩
      rw [List.mem_singleton] at hq
      omega
    · rcases hok with ⟨h1, _, _⟩
      rw [readPositions] at hq
      split at hq <;> rw [List.mem_range'_1] at hq <;> omega
  rcases B with ⟨bit, mask⟩ | ⟨bit, entries⟩ | ⟨bit, mx⟩ | ⟨sb, bn⟩
  · exact hbit bit hB
  · exact hbit bit hB
  · exact hbit bit hB
  · intro q hq
    rw [fieldReadPositions] at hq
    obtain ⟨i, _, rfl⟩ := List.mem_map.mp hq
    omega

/-- Buffer with bit 1 set (byte 0 = 0x80). -/
def byte0Eighty : List Nat := [0x80, 0, 0, 0, 0, 0, 0, 0, 0, 0, 0, 0]

/-- C6 counterexample: the value fields A on range `(3, 10)` and B on
range `(1, 2)` have disjoint declared bit ranges (inclusive positions
3..10 versus 1..2), yet encoding A — whose range triggers the misaligned
whole-byte fast path, `10 = 3 + 7` with 3 odd — overwrites the whole of
byte 0 and changes B's decoded value from 1 to 0. -/
theorem c6_counterexample :
    ((List.range' 3 8).all (fun p => !((List.range' 1 2).contains p)) = true) ∧
    fieldUpdate (.value (.range 1 2) 4) byte0Eighty = .num 1 ∧
    fieldAssign (.value (.range 3 10) 256) (.num 0) byte0Eighty = Sum.inr zeroData ∧
    fieldUpdate (.value (.range 1 2) 4) zeroData = .num 0 := by
  refine ⟨by decide, by decide, by decide, by decide⟩

/-- C6 (amended): encoding a well-formed field A never changes the
decoded value of a well-formed field B provided A's *write footprint* is
disjoint from B's *read footprint* — the footprint being the declared
positions on the general path and the single position for scalars, but
the whole byte containing `start` when the range triggers the fast-path
guard `end = start + 7 ∧ start odd`.  Declared-range disjointness alone
is not enough (see the counterexample). -/
theorem c6_noninterference (A B : Field) (dA : Display) (data : List Nat)
    (hA : fieldPosOK A data) (hB : fieldPosOK B data)
    (hbytes : ∀ b ∈ data, b < 256)
    (hdisj : ∀ q ∈ fieldReadPositions B, q ∉ fieldWritePositions A) :
    fieldUpdate B (getBuffer (fieldAssign A dA data)) = fieldUpdate B data := by
  obtain ⟨out, hout⟩ := fieldAssign_inr A dA data hA
  rw [hout]
  rw [show getBuffer (Sum.inr out) = out from rfl]
  apply fieldUpdate_congr B out data
    (fieldAssign_out_length A dA data out hout)
    (fieldAssign_out_bytes_lt A dA data out hbytes hout)
    hbytes
  intro q hq
  exact fieldAssign_frame A dA data out hA hout q
    (fieldReadPositions_pos B data hB q hq) (hdisj q hq)

/-- C6 witness: encoding value 3 into field `(1, 2)` leaves the decoded
value of the byte-aligned field `(9, 17)` unchanged on the zero buffer. -/
theorem c6_noninterference_witness :
    fieldUpdate (.value (.range 9 17) 256)
        (getBuffer (fieldAssign (.value (.range 1 2) 4) (.num 3) zeroData)) =
      fieldUpdate (.value (.range 9 17) 256) zeroData :=
  c6_noninterference (.value (.range 1 2) 4) (.value (.range 9 17) 256) (.num 3) zeroData
    (by decide) (by decide) (by decide) (by decide)

/-- Python's notion of ASCII whitespace (`str.isspace` characters used by
the spec's "remove whitespace" normalization).  Modelled from the spec:
the source removes only `' '` (`text.replace(' ', '')`). -/
def isPyWhitespace (c : Char) : Bool :=
  (c == ' ') || (c == '\t') || (c == '\n') || (c == '\r') || (c == '\x0b') || (c == '\x0c')

/-- Validity of a raw edit as the claim words it.  Modelled from the
spec: "normalize by removing whitespace; if the normalized text is not
exactly `2*N` hexadecimal characters, or fails to parse as hex, mark the
raw view as invalid".  A 24-hex-digit string always parses, so validity
is: whitespace-stripped text is exactly 24 hex digits. -/
def specRawValid (text : List Char) : Bool :=
  ((text.filter (fun c => !(isPyWhitespace c))).length == 24) &&
  ((text.filter (fun c => !(isPyWhitespace c))).all (fun c => (hexVal c).isSome))

/-- Editor with one bound byte-wide value field over the zero buffer. -/
def c7editor : Editor :=
  { data := zeroData, updateFlag := false, fields := [.value (.range 1 9) 256],
    displays := [.num 0], rawInvalid := false }

/-- C7 counterexample: the text `"0 0112233445566778899aabb"` is valid
under the claim's reading — with whitespace removed it is exactly 24
hexadecimal characters — yet the source rejects it with no buffer change
and no event, because `bytes.fromhex` is applied to the *original* text
and a space inside the first byte pair raises `ValueError`. -/
theorem c7_counterexample :
    specRawValid ("0 0112233445566778899aabb".toList) = true ∧
    HandleRawDataEdited c7editor ("0 0112233445566778899aabb".toList) =
      ({ c7editor with rawInvalid := true }, []) := by
  refine ⟨by decide, by decide⟩

/-- C7 (amended): the length check strips only spaces (not all
whitespace) and the hex parse is Python's `fromhex` on the original text
(spaces legal only between byte pairs).  If either fails: the edit is
rejected, only the invalid style changes, and no event is emitted.  If
both succeed: the parse yields exactly 12 bytes, the buffer is replaced,
every bound field is re-decoded from it (with the guard set during the
pushes), and exactly one `DataUpdate` event carrying the new buffer is
emitted. -/
theorem c7_raw_edit (st : Editor) (text : List Char) :
    (((text.filter (fun c => c ≠ ' ')).length ≠ 24 ∨ fromhexAux text = none) →
      HandleRawDataEdited st text = ({ st with rawInvalid := true }, [])) ∧
    (∀ d, (text.filter (fun c => c ≠ ' ')).length = 24 → fromhexAux text = some d →
      d.length = 12 ∧
      HandleRawDataEdited st text =
        ({ st with
            data := d,
            rawInvalid := false,
            updateFlag := false,
            displays := st.fields.map (fun f => fieldUpdate f d) },
          ((List.range st.fields.length).map
            (fun j => Ev.push j true (fieldUpdate (st.fields.getD j default) d))) ++
            [Ev.dataUpdate d]) ∧
      (HandleRawDataEdited st text).2.filter isDataUpdate = [Ev.dataUpdate d]) := by
  constructor
  · intro h
    have hscrut : (if (text.filter (fun c => c ≠ ' ')).length = 24
        then fromhexAux text else none) = none := by
      rcases h with h | h
      · rw [if_neg h]
      · split
        · exact h
        · rfl
    simp only [HandleRawDataEdited]
    rw [hscrut]
  · intro d hlen hsome
    have hscrut : (if (text.filter (fun c => c ≠ ' ')).length = 24
        then fromhexAux text else none) = some d := by
      rw [if_pos hlen]
      exact hsome
    have h12 : d.length = 12 := by
      have := fromhexAux_len text d hsome
      omega
    refine ⟨h12, ?_, ?_⟩
    · simp only [HandleRawDataEdited]
      rw [hscrut]
    · simp only [HandleRawDataEdited]
      rw [hscrut]
      simp [List.filter_map, isDataUpdate, Function.comp]

/-- C7 witness: a valid raw edit (spaces between pairs) replaces the
buffer with the 12 parsed bytes and emits exactly one data event. -/
theorem c7_raw_edit_witness :
    ([0x00, 0x11, 0x22, 0x33, 0x44, 0x55, 0x66, 0x77, 0x88, 0x99, 0xaa, 0xbb] :
        List Nat).length = 12 ∧
    (HandleRawDataEdited c7editor ("00 1122334455667788 99aabb".toList)).2.filter
        isDataUpdate =
      [Ev.dataUpdate [0x00, 0x11, 0x22, 0x33, 0x44, 0x55, 0x66, 0x77, 0x88, 0x99, 0xaa, 0xbb]] := by
  have h := (c7_raw_edit c7editor ("00 1122334455667788 99aabb".toList)).2
    [0x00, 0x11, 0x22, 0x33, 0x44, 0x55, 0x66, 0x77, 0x88, 0x99, 0xaa, 0xbb]
    (by decide) (by decide)
  exact ⟨h.1, h.2.2⟩

/-- Editor with two byte-wide value fields; field 0's widget holds 5. -/
def c8editor : Editor :=
  { data := zeroData, updateFlag := false,
    fields := [.value (.range 1 9) 256, .value (.range 9 17) 256],
    displays := [.num 5, .num 0], rawInvalid := false }

/-- C8 counterexample: an accepted field edit re-encodes the buffer and
pushes the re-decoded value to the other field, but the push is recorded
with `UpdateFlag = false` — `HandleFieldUpdate` never sets the
re-entrancy guard during its fan-out (unlike `update` and
`HandleRawDataEdited`), contradicting the claim that the guard is set
while pushing. -/
theorem c8_counterexample :
    HandleFieldUpdate c8editor 0 =
      some ({ c8editor with data := [5, 0, 0, 0, 0, 0, 0, 0, 0, 0, 0, 0] },
        [Ev.push 1 false (.num 0),
         Ev.dataUpdate [5, 0, 0, 0, 0, 0, 0, 0, 0, 0, 0, 0]]) := by
  decide

/-- C8 (amended): when the guard is clear, a field edit computes the new
buffer via that field's encode, pushes re-decoded values to every *other*
bound field with the guard still clear (the handler never sets
`UpdateFlag`; only raw-text and programmatic refreshes do), and emits
exactly one buffer-changed event at the end of the run; an edit arriving
while the guard is set is ignored. -/
theorem c8_field_edit_fanout (st : Editor) (i : Nat) (hguard : st.updateFlag = false)
    (d : List Nat)
    (hassign : fieldAssign (st.fields.getD i default) (st.displays.getD i default)
      st.data = Sum.inr d) :
    (HandleFieldUpdate st i =
      some ({ st with
          data := d,
          rawInvalid := false,
          displays := (List.range st.fields.length).map
            (fun j => if j = i then st.displays.getD j default
                      else fieldUpdate (st.fields.getD j default) d) },
        (((List.range st.fields.length).filter (fun j => j ≠ i)).map
          (fun j => Ev.push j false (fieldUpdate (st.fields.getD j default) d))) ++
          [Ev.dataUpdate d])) ∧
    ((HandleFieldUpdate st i).map (fun r => r.2.filter isDataUpdate) =
      some [Ev.dataUpdate d]) ∧
    (∀ st2 j, st2.updateFlag = true → HandleFieldUpdate st2 j = some (st2, [])) := by
  have hmain : HandleFieldUpdate st i =
      some ({ st with
          data := d,
          rawInvalid := false,
          displays := (List.range st.fields.length).map
            (fun j => if j = i then st.displays.getD j default
                      else fieldUpdate (st.fields.getD j default) d) },
        (((List.range st.fields.length).filter (fun j => j ≠ i)).map
          (fun j => Ev.push j false (fieldUpdate (st.fields.getD j default) d))) ++
          [Ev.dataUpdate d]) := by
    simp only [HandleFieldUpdate]
    rw [if_neg (by rw [hguard]; simp)]
    rw [hassign, hguard]
  refine ⟨hmain, ?_, ?_⟩
  · rw [hmain]
    simp [List.filter_map, isDataUpdate, Function.comp]
  · intro st2 j h2
    simp only [HandleFieldUpdate]
    rw [if_pos h2]

/-- C8 witness: the two-field editor's accepted edit emits exactly one
data event. -/
theorem c8_field_edit_fanout_witness :
    (HandleFieldUpdate c8editor 0).map (fun r => r.2.filter isDataUpdate) =
      some [Ev.dataUpdate [5, 0, 0, 0, 0, 0, 0, 0, 0, 0, 0, 0]] :=
  (c8_field_edit_fanout c8editor 0 rfl [5, 0, 0, 0, 0, 0, 0, 0, 0, 0, 0, 0]
    (by decide)).2.1

end Miyamoto
